import Mathlib

set_option linter.unusedVariables false

/-! Verification of the rasterizer, font renderer and memory-map enumerator
of `src/src/main.rs`.  Machine integers (`i64`, `usize`) are modelled as
`Int` and `Nat`; the Rust `i64` division truncates toward zero, hence
`Int.tdiv`.  The frame-buffer memory is modelled as a total map from byte
addresses to 32-bit colour words (colours as `Nat`); every mutating
operation returns the buffer after the call, together with its Rust
`Result` value. -/

/-- The `VramBufferInfo` struct together with the backing frame-buffer
memory: `store` maps the byte address of a 4-byte pixel word to the colour
word held there. -/
structure VramBufferInfo where
  width : Int
  height : Int
  pixels_per_line : Int
  store : Int → Nat

/-- `Bitmap::bytes_per_pixel` as implemented for `VramBufferInfo`: the
constant 4. -/
def bytes_per_pixel : Int := 4

/-- `Bitmap::unchecked_pixel_at_mut`: the byte address
`(y * pixels_per_line + x) * bytes_per_pixel` of pixel `(x, y)`. -/
def unchecked_pixel_at (buf : VramBufferInfo) (x y : Int) : Int :=
  (y * buf.pixels_per_line + x) * bytes_per_pixel

/-- `Bitmap::is_in_x_range`: `0 <= x && x < min(width, pixels_per_line)`. -/
def is_in_x_range (buf : VramBufferInfo) (x : Int) : Prop :=
  0 ≤ x ∧ x < min buf.width buf.pixels_per_line

/-- `Bitmap::is_in_y_range`: `0 <= y && y < height`. -/
def is_in_y_range (buf : VramBufferInfo) (y : Int) : Prop :=
  0 ≤ y ∧ y < buf.height

instance (buf : VramBufferInfo) (x : Int) : Decidable (is_in_x_range buf x) :=
  inferInstanceAs (Decidable (0 ≤ x ∧ x < min buf.width buf.pixels_per_line))

instance (buf : VramBufferInfo) (y : Int) : Decidable (is_in_y_range buf y) :=
  inferInstanceAs (Decidable (0 ≤ y ∧ y < buf.height))

/-- The store update performed by writing a colour word through a pixel
pointer (`*ptr = color`). -/
def store_write (buf : VramBufferInfo) (addr : Int) (color : Nat) : VramBufferInfo :=
  { buf with store := fun a => if a = addr then color else buf.store a }

/-- `Bitmap::pixel_at_mut`: the checked accessor; yields the pixel's byte
address exactly when the coordinate passes both range checks. -/
def pixel_at_mut (buf : VramBufferInfo) (x y : Int) : Option Int :=
  if is_in_x_range buf x ∧ is_in_y_range buf y then
    some (unchecked_pixel_at buf x y)
  else
    none

/-- `unchecked_draw_point`: unchecked write of `color` at `(x, y)`. -/
def unchecked_draw_point (buf : VramBufferInfo) (x y : Int) (color : Nat) :
    VramBufferInfo :=
  store_write buf (unchecked_pixel_at buf x y) color

/-- `draw_point`: checked write; `Err("Out of Range")` when `pixel_at_mut`
returns `None`.  The second component is the buffer after the call. -/
def draw_point (buf : VramBufferInfo) (x y : Int) (color : Nat) :
    Except String Unit × VramBufferInfo :=
  match pixel_at_mut buf x y with
  | some addr => (Except.ok (), store_write buf addr color)
  | none => (Except.error "Out of Range", buf)

/-- `n` consecutive integers starting at `a`. -/
def intRangeAux (a : Int) : Nat → List Int
  | 0 => []
  | n + 1 => a :: intRangeAux (a + 1) n

/-- The Rust half-open range `a..b` as the list `[a, a+1, …, b-1]`. -/
def rustRange (a b : Int) : List Int :=
  intRangeAux a (b - a).toNat

/-- The pixels visited by `fill_rect`'s nested loops
`for y in py..(py+h) { for x in px..(px+w) { … } }`, in loop order. -/
def rect_points (px py w h : Int) : List (Int × Int) :=
  (rustRange py (py + h)).flatMap (fun y =>
    (rustRange px (px + w)).map (fun x => (x, y)))

/-- Folding `unchecked_draw_point` over a list of points. -/
def unchecked_draw_point_list (buf : VramBufferInfo) (pts : List (Int × Int))
    (color : Nat) : VramBufferInfo :=
  pts.foldl (fun b p => unchecked_draw_point b p.1 p.2 color) buf

/-- `fill_rect`: validates the two corners, then writes every pixel of the
rectangle through the unchecked accessor. -/
def fill_rect (buf : VramBufferInfo) (px py w h : Int) (color : Nat) :
    Except String Unit × VramBufferInfo :=
  if ¬is_in_x_range buf px ∨ ¬is_in_y_range buf py
      ∨ ¬is_in_x_range buf (px + w - 1) ∨ ¬is_in_y_range buf (py + h - 1) then
    (Except.error "Out of range", buf)
  else
    (Except.ok (), unchecked_draw_point_list buf (rect_points px py w h) color)

/-- `calc_slope_point`: the exact-rounding slope interpolation
`(2 * db * ia + da) / da / 2` guarded by `da < db`, `da == 0` and
`(0..=da).contains(&ia)`. -/
def calc_slope_point (da db ia : Int) : Option Int :=
  if da < db then none
  else if da = 0 then some 0
  else if 0 ≤ ia ∧ ia ≤ da then
    some (Int.tdiv (Int.tdiv (2 * db * ia + da) da) 2)
  else none

/-- The points traversed by `draw_line` after its endpoint validation: one
candidate per major-axis position in `0..da` (the source's exclusive upper
end), skipping positions where `calc_slope_point` yields `None`. -/
def line_points (x0 y0 x1 y1 : Int) : List (Int × Int) :=
  let dx := |x1 - x0|
  let sx := (x1 - x0).sign
  let dy := |y1 - y0|
  let sy := (y1 - y0).sign
  if dy ≤ dx then
    (rustRange 0 dx).filterMap (fun rx =>
      (calc_slope_point dx dy rx).map (fun ry => (x0 + rx * sx, y0 + ry * sy)))
  else
    (rustRange 0 dy).filterMap (fun ry =>
      (calc_slope_point dy dx ry).map (fun rx => (x0 + rx * sx, y0 + ry * sy)))

/-- Sequential checked point writes with `?`-propagation: the first failing
`draw_point` aborts the loop, keeping the writes made so far. -/
def draw_points_seq (buf : VramBufferInfo) (pts : List (Int × Int)) (color : Nat) :
    Except String Unit × VramBufferInfo :=
  match pts with
  | [] => (Except.ok (), buf)
  | p :: rest =>
    match draw_point buf p.1 p.2 color with
    | (Except.ok _, b) => draw_points_seq b rest color
    | (Except.error e, b) => (Except.error e, b)

/-- `draw_line`: endpoint validation followed by the interpolated writes. -/
def draw_line (buf : VramBufferInfo) (x0 y0 x1 y1 : Int) (color : Nat) :
    Except String Unit × VramBufferInfo :=
  if ¬is_in_x_range buf x0 ∨ ¬is_in_y_range buf y0
      ∨ ¬is_in_x_range buf x1 ∨ ¬is_in_y_range buf y1 then
    (Except.error "Out of range", buf)
  else
    draw_points_seq buf (line_points x0 y0 x1 y1) color

/-- An 8×8 canvas with stride 8, initially all zero, used as concrete test
input. -/
def vram8x8 : VramBufferInfo :=
  { width := 8, height := 8, pixels_per_line := 8, store := fun _ => 0 }

/-! ### Basic lemmas about the embedding -/

theorem mem_intRangeAux {z a : Int} {n : Nat} :
    z ∈ intRangeAux a n ↔ a ≤ z ∧ z < a + n := by
  induction n generalizing a with
  | zero => simp [intRangeAux]
  | succ m ih =>
    simp only [intRangeAux, List.mem_cons, ih]
    constructor
    · rintro (rfl | ⟨h1, h2⟩) <;> [constructor; constructor] <;> push_cast <;> omega
    · rintro ⟨h1, h2⟩
      by_cases hz : z = a
      · exact Or.inl hz
      · refine Or.inr ⟨by omega, ?_⟩
        push_cast at h2 ⊢
        omega

theorem mem_rustRange {a b z : Int} : z ∈ rustRange a b ↔ a ≤ z ∧ z < b := by
  rw [rustRange, mem_intRangeAux]
  omega

theorem length_intRangeAux (a : Int) (n : Nat) : (intRangeAux a n).length = n := by
  induction n generalizing a with
  | zero => rfl
  | succ m ih => simp [intRangeAux, ih]

theorem unchecked_pixel_at_store_write (buf : VramBufferInfo) (addr : Int)
    (c : Nat) (x y : Int) :
    unchecked_pixel_at (store_write buf addr c) x y = unchecked_pixel_at buf x y := rfl

theorem length_filterMap_of_all_some {α β : Type} (f : α → Option β) (l : List α)
    (h : ∀ a ∈ l, (f a).isSome) : (l.filterMap f).length = l.length := by
  induction l with
  | nil => rfl
  | cons x xs ih =>
    have hx := h x (List.mem_cons_self x xs)
    rcases Option.isSome_iff_exists.mp hx with ⟨b, hb⟩
    rw [List.filterMap_cons, hb, List.length_cons,
      ih (fun a ha => h a (List.mem_cons_of_mem x ha)), List.length_cons]

theorem unchecked_draw_point_list_store (pts : List (Int × Int))
    (buf : VramBufferInfo) (c : Nat) (i : Int) :
    (unchecked_draw_point_list buf pts c).store i =
      if ∃ p ∈ pts, unchecked_pixel_at buf p.1 p.2 = i then c else buf.store i := by
  induction pts generalizing buf with
  | nil => simp [unchecked_draw_point_list]
  | cons p rest ih =>
    rw [unchecked_draw_point_list, List.foldl_cons]
    have hstep : (unchecked_draw_point_list (unchecked_draw_point buf p.1 p.2 c) rest c).store i =
        if ∃ q ∈ rest, unchecked_pixel_at buf q.1 q.2 = i then c
        else (unchecked_draw_point buf p.1 p.2 c).store i := ih _
    rw [unchecked_draw_point_list] at hstep
    rw [hstep]
    by_cases hex : ∃ q ∈ rest, unchecked_pixel_at buf q.1 q.2 = i
    · rw [if_pos hex, if_pos]
      rcases hex with ⟨q, hq, hqi⟩
      exact ⟨q, List.mem_cons_of_mem p hq, hqi⟩
    · rw [if_neg hex]
      by_cases hp : unchecked_pixel_at buf p.1 p.2 = i
      · rw [if_pos ⟨p, List.mem_cons_self p rest, hp⟩]
        simp [unchecked_draw_point, store_write, hp.symm]
      · rw [if_neg]
        · simp only [unchecked_draw_point, store_write]
          rw [if_neg (fun hc => hp hc.symm)]
        · rintro ⟨q, hq, hqi⟩
          rcases List.mem_cons.mp hq with rfl | hq'
          · exact hp hqi
          · exact hex ⟨q, hq', hqi⟩

theorem mem_rect_points {px py w h : Int} {p : Int × Int} :
    p ∈ rect_points px py w h ↔
      px ≤ p.1 ∧ p.1 < px + w ∧ py ≤ p.2 ∧ p.2 < py + h := by
  simp only [rect_points, List.mem_flatMap, List.mem_map, mem_rustRange]
  constructor
  · rintro ⟨y, hy, x, hx, rfl⟩
    exact ⟨hx.1, hx.2, hy.1, hy.2⟩
  · rintro ⟨h1, h2, h3, h4⟩
    exact ⟨p.2, ⟨h3, h4⟩, p.1, ⟨h1, h2⟩, rfl⟩

/-! ### Claim theorems: rasterizer -/

/-- C10: the slope interpolation with major length `da = 10`, minor length
`db = 3`, at major-axis position `ia = 5`, yields minor offset `2`. -/
theorem calc_slope_point_10_3_5 : calc_slope_point 10 3 5 = some 2 := by decide

/-- C1: the claim says `draw_line` emits one point per integer `ia` in the
closed range `[0, da]`, that a degenerate call sets exactly one pixel and
that `draw_line 0 0 7 0` on an 8-wide canvas sets 8 pixels.  The source's
loop iterates the exclusive range `0..dx`, so the far endpoint is never
drawn: on the 8×8 canvas `draw_line 0 0 7 0` succeeds but writes only
columns 0–6 (7 pixels, column 7 untouched), and the degenerate
`draw_line 3 3 3 3` succeeds writing no pixel at all. -/
theorem draw_line_skips_last_step :
    (draw_line vram8x8 0 0 7 0 5).1 = Except.ok ()
    ∧ (∀ i : Fin 7,
        ((draw_line vram8x8 0 0 7 0 5).2).store
          (unchecked_pixel_at vram8x8 ((i : Nat) : Int) 0) = 5)
    ∧ ((draw_line vram8x8 0 0 7 0 5).2).store (unchecked_pixel_at vram8x8 7 0) = 0
    ∧ (draw_line vram8x8 3 3 3 3 5).1 = Except.ok ()
    ∧ ((draw_line vram8x8 3 3 3 3 5).2).store (unchecked_pixel_at vram8x8 3 3) = 0 :=
  ⟨rfl, by decide, by decide, rfl, by decide⟩

/-- C3 counterexample: the pixel sets written by `draw_line a b c d` and by
`draw_line c d a b` differ.  On the 8×8 canvas, `draw_line 0 0 1 0` writes
pixel `(0,0)` and not `(1,0)`, while the reversed `draw_line 1 0 0 0`
writes `(1,0)` and not `(0,0)`. -/
theorem draw_line_reversal_counterexample :
    ((draw_line vram8x8 0 0 1 0 5).2).store (unchecked_pixel_at vram8x8 0 0) = 5
    ∧ ((draw_line vram8x8 1 0 0 0 5).2).store (unchecked_pixel_at vram8x8 0 0) = 0
    ∧ ((draw_line vram8x8 0 0 1 0 5).2).store (unchecked_pixel_at vram8x8 1 0) = 0
    ∧ ((draw_line vram8x8 1 0 0 0 5).2).store (unchecked_pixel_at vram8x8 1 0) = 5 := by
  refine ⟨by decide, by decide, by decide, by decide⟩

theorem calc_slope_point_isSome {da db ia : Int} (hdb : db ≤ da) (h0 : 0 ≤ ia)
    (h1 : ia ≤ da) : (calc_slope_point da db ia).isSome := by
  unfold calc_slope_point
  rw [if_neg (by omega)]
  by_cases hz : da = 0
  · rw [if_pos hz]
    rfl
  · rw [if_neg hz, if_pos ⟨h0, h1⟩]
    rfl

theorem line_points_length (x0 y0 x1 y1 : Int) :
    (line_points x0 y0 x1 y1).length = (max |x1 - x0| |y1 - y0|).toNat := by
  unfold line_points
  by_cases hbr : |y1 - y0| ≤ |x1 - x0|
  · rw [if_pos hbr, length_filterMap_of_all_some, rustRange, length_intRangeAux]
    · rw [max_eq_left hbr]
      omega
    · intro rx hrx
      rcases mem_rustRange.mp hrx with ⟨h0, h1⟩
      rcases Option.isSome_iff_exists.mp
        (calc_slope_point_isSome hbr h0 (le_of_lt h1)) with ⟨v, hv⟩
      rw [hv]
      rfl
  · rw [if_neg hbr, length_filterMap_of_all_some, rustRange, length_intRangeAux]
    · rw [max_eq_right (le_of_not_le hbr)]
      omega
    · intro ry hry
      rcases mem_rustRange.mp hry with ⟨h0, h1⟩
      rcases Option.isSome_iff_exists.mp
        (calc_slope_point_isSome (le_of_not_le hbr) h0 (le_of_lt h1)) with ⟨v, hv⟩
      rw [hv]
      rfl

/-- C3 amended: the pixel sets written by `draw_line a b c d` and by
`draw_line c d a b` may differ (the loop's exclusive upper end keeps the
start pixel and omits the end pixel, and exact-half minor offsets round
away from the respective start); what does hold is that the two calls
traverse the same number of pixel positions, `max (|c - a|) (|d - b|)`,
one per major-axis step of the exclusive range. -/
theorem line_points_reversal_length (a b c d : Int) :
    (line_points a b c d).length = (max |c - a| |d - b|).toNat
    ∧ (line_points c d a b).length = (max |c - a| |d - b|).toNat := by
  refine ⟨line_points_length a b c d, ?_⟩
  rw [line_points_length c d a b, abs_sub_comm a c, abs_sub_comm b d]

/-- C5: on a frame buffer whose stride is at least its width, a checked
point write at any in-canvas `(x, y)` succeeds and reading the same pixel
afterwards returns the written colour; and the checked accessor
`pixel_at_mut` yields an address exactly when
`0 ≤ x < min width stride` and `0 ≤ y < height`. -/
theorem draw_point_roundtrip (buf : VramBufferInfo) (x y : Int) (c : Nat)
    (hst : buf.width ≤ buf.pixels_per_line)
    (hx0 : 0 ≤ x) (hx1 : x < buf.width) (hy0 : 0 ≤ y) (hy1 : y < buf.height) :
    (draw_point buf x y c).1 = Except.ok ()
    ∧ ((draw_point buf x y c).2).store (unchecked_pixel_at buf x y) = c
    ∧ (∀ x' y' : Int, (pixel_at_mut buf x' y').isSome ↔
        (0 ≤ x' ∧ x' < min buf.width buf.pixels_per_line
          ∧ 0 ≤ y' ∧ y' < buf.height)) := by
  have hin : is_in_x_range buf x ∧ is_in_y_range buf y :=
    ⟨⟨hx0, lt_min hx1 (lt_of_lt_of_le hx1 hst)⟩, hy0, hy1⟩
  refine ⟨?_, ?_, ?_⟩
  · simp [draw_point, pixel_at_mut, hin]
  · simp [draw_point, pixel_at_mut, hin, store_write]
  · intro x' y'
    unfold pixel_at_mut
    split_ifs with h
    · simp only [Option.isSome_some, true_iff]
      exact ⟨h.1.1, h.1.2, h.2.1, h.2.2⟩
    · constructor
      · intro hs
        simp at hs
      · intro hc
        exact absurd ⟨⟨hc.1, hc.2.1⟩, hc.2.2.1, hc.2.2.2⟩ h

theorem draw_point_roundtrip_witness :
    (draw_point vram8x8 3 4 7).1 = Except.ok ()
    ∧ ((draw_point vram8x8 3 4 7).2).store (unchecked_pixel_at vram8x8 3 4) = 7 :=
  ⟨(draw_point_roundtrip vram8x8 3 4 7 (by decide) (by decide) (by decide)
      (by decide) (by decide)).1,
   (draw_point_roundtrip vram8x8 3 4 7 (by decide) (by decide) (by decide)
      (by decide) (by decide)).2.1⟩

/-- C2: `fill_rect` is all-or-nothing.  If either the top-left corner
`(px, py)` or the bottom-right corner `(px+w-1, py+h-1)` fails the range
checks it returns the out-of-range error with the buffer unchanged;
otherwise it returns success and every pixel of the rectangle holds the
written colour. -/
theorem fill_rect_all_or_nothing (buf : VramBufferInfo) (px py w h : Int) (c : Nat) :
    (¬(is_in_x_range buf px ∧ is_in_y_range buf py
        ∧ is_in_x_range buf (px + w - 1) ∧ is_in_y_range buf (py + h - 1)) →
      fill_rect buf px py w h c = (Except.error "Out of range", buf))
    ∧ (is_in_x_range buf px ∧ is_in_y_range buf py
        ∧ is_in_x_range buf (px + w - 1) ∧ is_in_y_range buf (py + h - 1) →
      (fill_rect buf px py w h c).1 = Except.ok ()
      ∧ ∀ x y : Int, px ≤ x → x < px + w → py ≤ y → y < py + h →
          ((fill_rect buf px py w h c).2).store (unchecked_pixel_at buf x y) = c) := by
  constructor
  · intro hn
    rw [fill_rect, if_pos (by tauto)]
  · intro hp
    have hcond : ¬(¬is_in_x_range buf px ∨ ¬is_in_y_range buf py
        ∨ ¬is_in_x_range buf (px + w - 1) ∨ ¬is_in_y_range buf (py + h - 1)) := by
      tauto
    constructor
    · rw [fill_rect, if_neg hcond]
    · intro x y h1 h2 h3 h4
      rw [fill_rect, if_neg hcond]
      show (unchecked_draw_point_list buf (rect_points px py w h) c).store
        (unchecked_pixel_at buf x y) = c
      rw [unchecked_draw_point_list_store,
        if_pos ⟨(x, y), mem_rect_points.mpr ⟨h1, h2, h3, h4⟩, rfl⟩]

theorem fill_rect_all_or_nothing_witness :
    (fill_rect vram8x8 1 1 2 2 9).1 = Except.ok ()
    ∧ ((fill_rect vram8x8 1 1 2 2 9).2).store (unchecked_pixel_at vram8x8 2 2) = 9 := by
  have hw := (fill_rect_all_or_nothing vram8x8 1 1 2 2 9).2 (by decide)
  exact ⟨hw.1, hw.2 2 2 (by decide) (by decide) (by decide) (by decide)⟩

theorem sign_step_between {p q ia : Int} (h0 : 0 ≤ ia) (h1 : ia ≤ |q - p|) :
    min p q ≤ p + ia * (q - p).sign ∧ p + ia * (q - p).sign ≤ max p q := by
  rcases lt_trichotomy (q - p) 0 with hlt | heq | hgt
  · rw [Int.sign_eq_neg_one_iff_neg.mpr hlt] at *
    rw [abs_of_neg hlt] at h1
    omega
  · have hqp : q = p := by omega
    subst hqp
    simp
  · rw [Int.sign_eq_one_iff_pos.mpr hgt] at *
    rw [abs_of_pos hgt] at h1
    omega

theorem calc_slope_point_bounds {da db ia v : Int} (hdb0 : 0 ≤ db)
    (h : calc_slope_point da db ia = some v) : 0 ≤ v ∧ v ≤ db := by
  unfold calc_slope_point at h
  by_cases h1 : da < db
  · rw [if_pos h1] at h
    exact absurd h (by simp)
  rw [if_neg h1] at h
  by_cases h2 : da = 0
  · rw [if_pos h2] at h
    have hv : (0 : Int) = v := Option.some.inj h
    omega
  rw [if_neg h2] at h
  by_cases h3 : 0 ≤ ia ∧ ia ≤ da
  swap
  · rw [if_neg h3] at h
    exact absurd h (by simp)
  rw [if_pos h3] at h
  obtain ⟨hia, hiada⟩ := h3
  have hda : 0 < da := by omega
  have hprod : 0 ≤ 2 * db * ia := mul_nonneg (by linarith) hia
  have hN : 0 ≤ 2 * db * ia + da := by linarith
  have hq_eq : Int.tdiv (2 * db * ia + da) da = (2 * db * ia + da) / da :=
    Int.tdiv_eq_ediv hN (le_of_lt hda)
  have hq0 : 0 ≤ (2 * db * ia + da) / da := Int.ediv_nonneg hN (le_of_lt hda)
  have hv_eq : v = ((2 * db * ia + da) / da) / 2 := by
    rw [← Option.some.inj h, hq_eq, Int.tdiv_eq_ediv hq0 (by norm_num)]
  have hub : 2 * db * ia + da ≤ da * (2 * db + 1) := by
    have hmul : 2 * db * ia ≤ 2 * db * da :=
      mul_le_mul_of_nonneg_left hiada (by linarith)
    nlinarith
  have hqub : (2 * db * ia + da) / da ≤ 2 * db + 1 := by
    have := Int.ediv_le_ediv hda hub
    rwa [Int.mul_ediv_cancel_left (2 * db + 1) (ne_of_gt hda)] at this
  omega

theorem draw_points_seq_ok (pts : List (Int × Int)) (buf : VramBufferInfo) (c : Nat)
    (h : ∀ p ∈ pts, is_in_x_range buf p.1 ∧ is_in_y_range buf p.2) :
    (draw_points_seq buf pts c).1 = Except.ok () := by
  induction pts generalizing buf with
  | nil => rfl
  | cons p rest ih =>
    have hp := h p (List.mem_cons_self p rest)
    have hd : draw_point buf p.1 p.2 c =
        (Except.ok (), store_write buf (unchecked_pixel_at buf p.1 p.2) c) := by
      rw [draw_point, pixel_at_mut, if_pos hp]
    rw [draw_points_seq, hd]
    exact ih _ (fun q hq => h q (List.mem_cons_of_mem p hq))

theorem line_points_in_range (buf : VramBufferInfo) {x0 y0 x1 y1 : Int}
    (h0x : is_in_x_range buf x0) (h0y : is_in_y_range buf y0)
    (h1x : is_in_x_range buf x1) (h1y : is_in_y_range buf y1) :
    ∀ p ∈ line_points x0 y0 x1 y1,
      is_in_x_range buf p.1 ∧ is_in_y_range buf p.2 := by
  intro p hp
  unfold line_points at hp
  by_cases hbr : |y1 - y0| ≤ |x1 - x0|
  · rw [if_pos hbr] at hp
    rcases List.mem_filterMap.mp hp with ⟨rx, hrx, hmap⟩
    rcases mem_rustRange.mp hrx with ⟨hrx0, hrx1⟩
    rcases Option.map_eq_some'.mp hmap with ⟨ry, hcs, hpe⟩
    rcases calc_slope_point_bounds (abs_nonneg (y1 - y0)) hcs with ⟨hry0, hry1⟩
    have hbx := sign_step_between hrx0 (le_of_lt hrx1)
    have hby := sign_step_between hry0 hry1
    rw [← hpe]
    constructor
    · unfold is_in_x_range at *
      omega
    · unfold is_in_y_range at *
      omega
  · rw [if_neg hbr] at hp
    rcases List.mem_filterMap.mp hp with ⟨ry, hry, hmap⟩
    rcases mem_rustRange.mp hry with ⟨hry0, hry1⟩
    rcases Option.map_eq_some'.mp hmap with ⟨rx, hcs, hpe⟩
    rcases calc_slope_point_bounds (abs_nonneg (x1 - x0)) hcs with ⟨hrx0, hrx1⟩
    have hbx := sign_step_between hrx0 hrx1
    have hby := sign_step_between hry0 (le_of_lt hry1)
    rw [← hpe]
    constructor
    · unfold is_in_x_range at *
      omega
    · unfold is_in_y_range at *
      omega

/-- C4: endpoint-only validation of `draw_line` is sound.  When both
endpoints pass the range checks, every interpolated point of
`line_points` lies inside the canvas, so every internal checked
`draw_point` succeeds and `draw_line` returns `Ok` (its later
out-of-range branch is unreachable). -/
theorem draw_line_endpoint_validation_sound (buf : VramBufferInfo)
    (x0 y0 x1 y1 : Int) (c : Nat)
    (h0x : is_in_x_range buf x0) (h0y : is_in_y_range buf y0)
    (h1x : is_in_x_range buf x1) (h1y : is_in_y_range buf y1) :
    (∀ p ∈ line_points x0 y0 x1 y1,
      is_in_x_range buf p.1 ∧ is_in_y_range buf p.2)
    ∧ (draw_line buf x0 y0 x1 y1 c).1 = Except.ok () := by
  refine ⟨line_points_in_range buf h0x h0y h1x h1y, ?_⟩
  rw [draw_line, if_neg (by tauto)]
  exact draw_points_seq_ok _ buf c (line_points_in_range buf h0x h0y h1x h1y)

theorem draw_line_endpoint_validation_sound_witness :
    (draw_line vram8x8 0 0 7 5 3).1 = Except.ok () :=
  (draw_line_endpoint_validation_sound vram8x8 0 0 7 5 3
    (by decide) (by decide) (by decide) (by decide)).2

/-! ### Memory-map enumerator -/

/-- `MEMORY_MAP_BUFFER_SIZE`: 32 KiB. -/
def MEMORY_MAP_BUFFER_SIZE : Nat := 0x8000

/-- `MemoryMapHolder`: the scalar state filled in by `get_memory_map`
(`memory_map_size` is the used byte count, `descriptor_size` the
firmware-reported stride).  The 32 KiB byte buffer itself is kept
abstract: a yielded descriptor view is identified by the byte offset at
which the iterator reads it. -/
structure MemoryMapHolder where
  memory_map_size : Nat
  map_key : Nat
  descriptor_size : Nat
  descriptor_version : Nat

/-- `MemoryMapHolder::new`: `memory_map_size` starts at the full buffer
capacity and `descriptor_size` at zero. -/
def MemoryMapHolder.new : MemoryMapHolder :=
  { memory_map_size := MEMORY_MAP_BUFFER_SIZE
    map_key := 0
    descriptor_size := 0
    descriptor_version := 0 }

/-- `MemoryMapIterator`: a holder together with the cursor offset. -/
structure MemoryMapIterator where
  map : MemoryMapHolder
  ofs : Nat

/-- `MemoryMapHolder::iter`: starts at offset 0. -/
def MemoryMapHolder.iter (m : MemoryMapHolder) : MemoryMapIterator :=
  { map := m, ofs := 0 }

/-- `MemoryMapIterator::next`: yields the descriptor view at the current
offset while `ofs < memory_map_size`, advancing by `descriptor_size`. -/
def MemoryMapIterator.next (it : MemoryMapIterator) :
    Option (Nat × MemoryMapIterator) :=
  if it.ofs ≥ it.map.memory_map_size then
    none
  else
    some (it.ofs, { it with ofs := it.ofs + it.map.descriptor_size })

/-- `n` calls of `next`, tracking only the iterator state; `none` once
the iteration has finished within the first `n` calls. -/
def MemoryMapIterator.stepN (it : MemoryMapIterator) : Nat → Option MemoryMapIterator
  | 0 => some it
  | n + 1 =>
    match it.next with
    | none => none
    | some (_, it2) => it2.stepN n

/-- The iteration terminates: some number of `next` calls returns `none`. -/
def MemoryMapIterator.terminates (it : MemoryMapIterator) : Prop :=
  ∃ n, it.stepN n = none

/-- The offsets yielded by one full iteration from `ofs`, for a positive
stride: exactly the offsets at which `next` yields until it returns
`none`.  (For a zero stride and a nonempty map the source iteration never
returns `none`; see the C7 counterexample.) -/
def mmYieldsFrom (size d ofs : Nat) : List Nat :=
  if h : 0 < d ∧ ofs < size then
    ofs :: mmYieldsFrom size d (ofs + d)
  else []
termination_by size - ofs
decreasing_by omega

/-- The full yielded-offset sequence of `MemoryMapHolder::iter`. -/
def MemoryMapHolder.yields (m : MemoryMapHolder) : List Nat :=
  mmYieldsFrom m.memory_map_size m.descriptor_size 0

theorem mmYieldsFrom_unfold (size d ofs : Nat) :
    mmYieldsFrom size d ofs =
      if 0 < d ∧ ofs < size then ofs :: mmYieldsFrom size d (ofs + d) else [] := by
  rw [mmYieldsFrom, dite_eq_ite]

theorem mm_next_eq (m : MemoryMapHolder) (ofs : Nat) :
    (MemoryMapIterator.mk m ofs).next =
      if ofs ≥ m.memory_map_size then none
      else some (ofs, MemoryMapIterator.mk m (ofs + m.descriptor_size)) := rfl

theorem mmYieldsFrom_length_lt (size d : Nat) (hd : 0 < d) :
    ∀ fuel ofs, size - ofs ≤ fuel →
      (mmYieldsFrom size d ofs).length * d < (size - ofs) + d := by
  intro fuel
  induction fuel with
  | zero =>
    intro ofs h
    rw [mmYieldsFrom_unfold, if_neg (by omega)]
    simp only [List.length_nil, Nat.zero_mul]
    omega
  | succ f ih =>
    intro ofs h
    by_cases ho : ofs < size
    · rw [mmYieldsFrom_unfold, if_pos ⟨hd, ho⟩, List.length_cons, Nat.add_mul,
        Nat.one_mul]
      by_cases hc : ofs + d ≤ size
      · have hih := ih (ofs + d) (by omega)
        generalize (mmYieldsFrom size d (ofs + d)).length * d = A at hih ⊢
        omega
      · rw [mmYieldsFrom_unfold, if_neg (by omega)]
        simp only [List.length_nil, Nat.zero_mul]
        omega
    · rw [mmYieldsFrom_unfold, if_neg (by omega)]
      simp only [List.length_nil, Nat.zero_mul]
      omega

theorem mmYieldsFrom_length_le_of_dvd (size d : Nat) (hd : 0 < d)
    (hdvd : d ∣ size) :
    ∀ fuel ofs, size - ofs ≤ fuel → d ∣ ofs → ofs ≤ size →
      (mmYieldsFrom size d ofs).length * d ≤ size - ofs := by
  intro fuel
  induction fuel with
  | zero =>
    intro ofs h hodvd hole
    rw [mmYieldsFrom_unfold, if_neg (by omega)]
    simp
  | succ f ih =>
    intro ofs h hodvd hole
    by_cases ho : ofs < size
    · have hsub : d ∣ size - ofs := Nat.dvd_sub' hdvd hodvd
      have hge : d ≤ size - ofs := Nat.le_of_dvd (by omega) hsub
      have hih := ih (ofs + d) (by omega) (Dvd.dvd.add hodvd dvd_rfl) (by omega)
      rw [mmYieldsFrom_unfold, if_pos ⟨hd, ho⟩, List.length_cons, Nat.add_mul,
        Nat.one_mul]
      generalize (mmYieldsFrom size d (ofs + d)).length * d = A at hih ⊢
      omega
    · rw [mmYieldsFrom_unfold, if_neg (by omega)]
      simp

/-- C6 amended: for a positive firmware stride, the sum of
`descriptor_size` over all yielded descriptors — the yield count times the
stride — is less than `memory_map_size + descriptor_size`; it can exceed
`memory_map_size` itself by up to `descriptor_size - 1` because the last
descriptor view may straddle the end of the used region, but when the
stride divides the used size (as for a well-formed firmware map) the sum
never exceeds `memory_map_size`. -/
theorem mm_yields_size_bound (m : MemoryMapHolder) (hd : 0 < m.descriptor_size) :
    m.yields.length * m.descriptor_size < m.memory_map_size + m.descriptor_size
    ∧ (m.descriptor_size ∣ m.memory_map_size →
        m.yields.length * m.descriptor_size ≤ m.memory_map_size) := by
  constructor
  · have h := mmYieldsFrom_length_lt m.memory_map_size m.descriptor_size hd
      m.memory_map_size 0 (by omega)
    rw [MemoryMapHolder.yields]
    omega
  · intro hdvd
    have h := mmYieldsFrom_length_le_of_dvd m.memory_map_size m.descriptor_size hd
      hdvd m.memory_map_size 0 (by omega) (dvd_zero _) (by omega)
    rw [MemoryMapHolder.yields]
    omega

/-- C6 counterexample: a holder state with used size 10 and stride 4
terminates after yielding the three descriptor views at offsets 0, 4 and
8, so the sum of `descriptor_size` over the yielded descriptors is 12,
which exceeds the reported used buffer size 10. -/
theorem mm_sum_exceeds_size_counterexample :
    (MemoryMapHolder.yields ⟨10, 0, 4, 0⟩).length * 4 = 12
    ∧ ¬((MemoryMapHolder.yields ⟨10, 0, 4, 0⟩).length * 4 ≤ 10) := by
  have hy : MemoryMapHolder.yields ⟨10, 0, 4, 0⟩ = [0, 4, 8] := by
    rw [MemoryMapHolder.yields]
    rw [mmYieldsFrom_unfold, if_pos (by norm_num)]
    rw [mmYieldsFrom_unfold, if_pos (by norm_num)]
    rw [mmYieldsFrom_unfold, if_pos (by norm_num)]
    rw [mmYieldsFrom_unfold, if_neg (by norm_num)]
    norm_num
  rw [hy]
  norm_num

theorem mm_yields_size_bound_witness :
    (MemoryMapHolder.yields ⟨12, 0, 4, 0⟩).length * 4 < 12 + 4
    ∧ (MemoryMapHolder.yields ⟨12, 0, 4, 0⟩).length * 4 ≤ 12 := by
  have h := mm_yields_size_bound ⟨12, 0, 4, 0⟩ (by norm_num)
  exact ⟨h.1, h.2 (by norm_num)⟩

/-- C7 counterexample: a freshly constructed holder has
`memory_map_size = 0x8000` and `descriptor_size = 0`, and its iterator
re-yields the offset-0 descriptor forever — `next` never returns `none` —
so iteration does not terminate, contradicting the claim that it
terminates for every value of `descriptor_size` including zero. -/
theorem mm_fresh_holder_diverges : ¬MemoryMapHolder.new.iter.terminates := by
  have hnext : MemoryMapHolder.new.iter.next =
      some (0, MemoryMapHolder.new.iter) := rfl
  have hstep : ∀ n,
      MemoryMapHolder.new.iter.stepN n = some MemoryMapHolder.new.iter := by
    intro n
    induction n with
    | zero => rfl
    | succ m ih =>
      show (match MemoryMapHolder.new.iter.next with
        | none => none
        | some (_, it2) => it2.stepN m) = some MemoryMapHolder.new.iter
      rw [hnext]
      exact ih
  rintro ⟨n, hn⟩
  rw [hstep n] at hn
  exact Option.noConfusion hn

theorem mm_stepN_terminates_of_pos (m : MemoryMapHolder)
    (hd : 0 < m.descriptor_size) :
    ∀ fuel ofs, m.memory_map_size - ofs ≤ fuel →
      ∃ n, (MemoryMapIterator.mk m ofs).stepN n = none := by
  intro fuel
  induction fuel with
  | zero =>
    intro ofs h
    refine ⟨1, ?_⟩
    show (match (MemoryMapIterator.mk m ofs).next with
      | none => none
      | some (_, it2) => it2.stepN 0) = none
    rw [mm_next_eq, if_pos (by omega)]
  | succ f ih =>
    intro ofs h
    by_cases ho : ofs ≥ m.memory_map_size
    · refine ⟨1, ?_⟩
      show (match (MemoryMapIterator.mk m ofs).next with
        | none => none
        | some (_, it2) => it2.stepN 0) = none
      rw [mm_next_eq, if_pos ho]
    · rcases ih (ofs + m.descriptor_size) (by omega) with ⟨n, hn⟩
      refine ⟨n + 1, ?_⟩
      show (match (MemoryMapIterator.mk m ofs).next with
        | none => none
        | some (_, it2) => it2.stepN n) = none
      rw [mm_next_eq, if_neg ho]
      exact hn

/-- C7 amended: iteration over the memory map terminates for every holder
whose firmware-reported stride is positive — the state after any
successful query — stopping once the cumulative offset reaches
`memory_map_size`, and a used size of zero terminates immediately with an
empty yield sequence; but for the zero stride of a freshly constructed,
unqueried holder with a nonempty map the iteration diverges, so
termination does not hold for every value of `descriptor_size`. -/
theorem mm_iteration_terminates (m : MemoryMapHolder)
    (h : 0 < m.descriptor_size ∨ m.memory_map_size = 0) :
    m.iter.terminates ∧ (m.memory_map_size = 0 → m.yields = []) := by
  constructor
  · rcases h with hd | hz
    · exact mm_stepN_terminates_of_pos m hd m.memory_map_size 0 (by omega)
    · refine ⟨1, ?_⟩
      show (match m.iter.next with
        | none => none
        | some (_, it2) => it2.stepN 0) = none
      have : m.iter.next = none := by
        rw [MemoryMapHolder.iter, mm_next_eq, if_pos (by omega)]
      rw [this]
  · intro hz
    rw [MemoryMapHolder.yields, mmYieldsFrom_unfold, if_neg (by omega)]

theorem mm_iteration_terminates_witness :
    (MemoryMapHolder.mk 8 0 4 0).iter.terminates :=
  (mm_iteration_terminates ⟨8, 0, 4, 0⟩ (Or.inl (by norm_num))).1

/-! ### Font renderer -/

/-- A hexadecimal digit's value, as accepted by `u8::from_str_radix(_, 16)`. -/
def hex_digit (c : Char) : Option Nat :=
  if '0' ≤ c ∧ c ≤ '9' then some (c.toNat - '0'.toNat)
  else if 'a' ≤ c ∧ c ≤ 'f' then some (c.toNat - 'a'.toNat + 10)
  else if 'A' ≤ c ∧ c ≤ 'F' then some (c.toNat - 'A'.toNat + 10)
  else none

/-- Accumulate hexadecimal digits left to right; `none` on a non-digit. -/
def hex_fold : List Char → Nat → Option Nat
  | [], acc => some acc
  | c :: cs, acc =>
    match hex_digit c with
    | some d => hex_fold cs (acc * 16 + d)
    | none => none

/-- Digits of a nonempty hexadecimal numeral. -/
def parse_hex_digits (cs : List Char) : Option Nat :=
  match cs with
  | [] => none
  | _ => hex_fold cs 0

/-- `u8::from_str_radix(s, 16)` over the characters of `s`: an optional
leading sign, then at least one hexadecimal digit; the value must fit in
`u8` (a `-` sign only admits the value zero). -/
def from_str_radix_u8 (cs : List Char) : Option Nat :=
  match cs with
  | '+' :: rest =>
    (parse_hex_digits rest).bind (fun v => if v ≤ 255 then some v else none)
  | '-' :: rest =>
    (parse_hex_digits rest).bind (fun v => if v = 0 then some v else none)
  | _ => (parse_hex_digits cs).bind (fun v => if v ≤ 255 then some v else none)

/-- The header-line parse of `lookup_font`: `strip_prefix("0x")` followed
by `u8::from_str_radix(_, 16)`. -/
def parse_header (line : String) : Option Nat :=
  match line.toList with
  | '0' :: 'x' :: rest => from_str_radix_u8 rest
  | _ => none

/-- One glyph row as built by `lookup_font`: the first 8 characters of the
line, cells beyond the line's length keeping the `'.'` default. -/
def build_glyph_row (line : String) : List Char :=
  (List.range 8).map (fun x => line.toList.getD x '.')

/-- The 8×16 glyph built from the 16 lines following a matching header;
missing trailing rows keep the all-`'.'` default. -/
def build_glyph (rest : List String) : List (List Char) :=
  (List.range 16).map (fun y =>
    match rest[y]? with
    | some line => build_glyph_row line
    | none => List.replicate 8 '.')

/-- The scan loop of `lookup_font` over the lines of the font source:
skip lines that do not parse as a header or whose codepoint differs,
build the glyph from the lines after the first matching header. -/
def lookup_scan (lines : List String) (c : Nat) : Option (List (List Char)) :=
  match lines with
  | [] => none
  | line :: rest =>
    match parse_header line with
    | some idx => if idx ≠ c then lookup_scan rest c else some (build_glyph rest)
    | none => lookup_scan rest c

/-- Modelled from the spec: the embedded resource `font.txt` referenced by
`include_str!` in `lookup_font` is not under `src/`, so the font source is
taken as a parameter — its list of lines, as produced by `split('\n')`.
The narrowing and scanning logic follows the source of `lookup_font`: the
codepoint (as `Nat`) is first narrowed by `u8::try_from`, which succeeds
exactly for codepoints below 256, then the lines are scanned for a
matching header. -/
def lookup_font (fontLines : List String) (c : Nat) : Option (List (List Char)) :=
  if c ≤ 255 then lookup_scan fontLines c else none

/-- The offsets at which `draw_font_fg`'s nested `enumerate` loops write:
one point per ink cell (`'*'`), blanks skipped by `continue`. -/
def glyph_points (font : List (List Char)) (x y : Int) : List (Int × Int) :=
  font.enum.flatMap (fun r =>
    r.2.enum.filterMap (fun p =>
      if p.2 = '*' then some (x + (p.1 : Int), y + (r.1 : Int)) else none))

/-- Folding checked point writes whose `Result` is discarded
(`let _ = draw_point(…)`). -/
def draw_point_list (buf : VramBufferInfo) (pts : List (Int × Int))
    (color : Nat) : VramBufferInfo :=
  pts.foldl (fun b p => (draw_point b p.1 p.2 color).2) buf

/-- `draw_font_fg`: look up the glyph and write `color` through
`draw_point` at every ink cell; a missing glyph draws nothing. -/
def draw_font_fg (fontLines : List String) (buf : VramBufferInfo) (x y : Int)
    (color : Nat) (c : Nat) : VramBufferInfo :=
  match lookup_font fontLines c with
  | some font => draw_point_list buf (glyph_points font x y) color
  | none => buf

theorem lookup_scan_none {lines : List String} {c : Nat}
    (h : ∀ line ∈ lines, parse_header line ≠ some c) :
    lookup_scan lines c = none := by
  induction lines with
  | nil => rfl
  | cons line rest ih =>
    rw [lookup_scan]
    rcases hp : parse_header line with _ | idx
    · exact ih (fun l hl => h l (List.mem_cons_of_mem line hl))
    · have hne : idx ≠ c := by
        intro he
        exact h line (List.mem_cons_self line rest) (by rw [hp, he])
      show (if idx ≠ c then lookup_scan rest c else some (build_glyph rest)) = none
      rw [if_pos hne]
      exact ih (fun l hl => h l (List.mem_cons_of_mem line hl))

/-- C8: for a codepoint outside the single-byte range, or one for which no
line of the font source parses as its header, `lookup_font` yields no
glyph, and `draw_font_fg` for that codepoint leaves every pixel of the
buffer unchanged; no error is produced on this path. -/
theorem lookup_font_absent (fontLines : List String) (c : Nat)
    (buf : VramBufferInfo) (x y : Int) (color : Nat)
    (h : 255 < c ∨ ∀ line ∈ fontLines, parse_header line ≠ some c) :
    lookup_font fontLines c = none
    ∧ draw_font_fg fontLines buf x y color c = buf := by
  have hnone : lookup_font fontLines c = none := by
    rcases h with hc | habs
    · rw [lookup_font, if_neg (by omega)]
    · rw [lookup_font]
      split_ifs with hle
      · exact lookup_scan_none habs
      · rfl
  refine ⟨hnone, ?_⟩
  rw [draw_font_fg, hnone]

theorem lookup_font_absent_witness :
    lookup_font ["0x41", "bogus"] 66 = none
    ∧ draw_font_fg ["0x41", "bogus"] vram8x8 0 0 7 66 = vram8x8 :=
  lookup_font_absent ["0x41", "bogus"] 66 vram8x8 0 0 7 (Or.inr (by decide))

theorem draw_point_geometry (buf : VramBufferInfo) (x y : Int) (c : Nat) :
    ((draw_point buf x y c).2).width = buf.width
    ∧ ((draw_point buf x y c).2).height = buf.height
    ∧ ((draw_point buf x y c).2).pixels_per_line = buf.pixels_per_line := by
  rw [draw_point]
  rcases pixel_at_mut buf x y with _ | addr
  · exact ⟨rfl, rfl, rfl⟩
  · exact ⟨rfl, rfl, rfl⟩

theorem is_in_x_range_congr {b1 b2 : VramBufferInfo}
    (hw : b1.width = b2.width) (hp : b1.pixels_per_line = b2.pixels_per_line) :
    ∀ x, is_in_x_range b1 x ↔ is_in_x_range b2 x := by
  intro x
  unfold is_in_x_range
  rw [hw, hp]

theorem is_in_y_range_congr {b1 b2 : VramBufferInfo}
    (hh : b1.height = b2.height) :
    ∀ y, is_in_y_range b1 y ↔ is_in_y_range b2 y := by
  intro y
  unfold is_in_y_range
  rw [hh]

theorem unchecked_pixel_at_congr {b1 b2 : VramBufferInfo}
    (hp : b1.pixels_per_line = b2.pixels_per_line) :
    ∀ x y, unchecked_pixel_at b1 x y = unchecked_pixel_at b2 x y := by
  intro x y
  unfold unchecked_pixel_at
  rw [hp]

theorem draw_point_list_store (pts : List (Int × Int)) (buf : VramBufferInfo)
    (c : Nat) (i : Int) :
    (draw_point_list buf pts c).store i =
      if ∃ p ∈ pts, is_in_x_range buf p.1 ∧ is_in_y_range buf p.2
          ∧ unchecked_pixel_at buf p.1 p.2 = i then c
      else buf.store i := by
  induction pts generalizing buf with
  | nil => simp [draw_point_list]
  | cons p rest ih =>
    rw [draw_point_list, List.foldl_cons]
    have hg := draw_point_geometry buf p.1 p.2 c
    have hstep := ih ((draw_point buf p.1 p.2 c).2)
    rw [draw_point_list] at hstep
    rw [hstep]
    simp only [is_in_x_range_congr hg.1 hg.2.2, is_in_y_range_congr hg.2.1,
      unchecked_pixel_at_congr hg.2.2]
    by_cases hex : ∃ q ∈ rest, is_in_x_range buf q.1 ∧ is_in_y_range buf q.2
        ∧ unchecked_pixel_at buf q.1 q.2 = i
    · rw [if_pos hex, if_pos]
      rcases hex with ⟨q, hq, hprops⟩
      exact ⟨q, List.mem_cons_of_mem p hq, hprops⟩
    · rw [if_neg hex]
      by_cases hpin : is_in_x_range buf p.1 ∧ is_in_y_range buf p.2
      · have hd : (draw_point buf p.1 p.2 c).2 =
            store_write buf (unchecked_pixel_at buf p.1 p.2) c := by
          rw [draw_point, pixel_at_mut, if_pos hpin]
        rw [hd]
        by_cases haddr : unchecked_pixel_at buf p.1 p.2 = i
        · rw [if_pos ⟨p, List.mem_cons_self p rest, hpin.1, hpin.2, haddr⟩]
          simp [store_write, haddr.symm]
        · rw [if_neg]
          · simp only [store_write]
            rw [if_neg (fun hc => haddr hc.symm)]
          · rintro ⟨q, hq, hq1, hq2, hq3⟩
            rcases List.mem_cons.mp hq with rfl | hq'
            · exact haddr hq3
            · exact hex ⟨q, hq', hq1, hq2, hq3⟩
      · have hd : (draw_point buf p.1 p.2 c).2 = buf := by
          rw [draw_point, pixel_at_mut, if_neg hpin]
        rw [hd, if_neg]
        rintro ⟨q, hq, hq1, hq2, hq3⟩
        rcases List.mem_cons.mp hq with rfl | hq'
        · exact hpin ⟨hq1, hq2⟩
        · exact hex ⟨q, hq', hq1, hq2, hq3⟩

theorem build_glyph_shape (rest : List String) :
    (build_glyph rest).length = 16 ∧ ∀ row ∈ build_glyph rest, row.length = 8 := by
  constructor
  · simp [build_glyph]
  · intro row hrow
    simp only [build_glyph, List.mem_map, List.mem_range] at hrow
    rcases hrow with ⟨y, hy, hrow⟩
    rcases h : rest[y]? with _ | line
    · rw [h] at hrow
      rw [← hrow]
      simp
    · rw [h] at hrow
      rw [← hrow]
      simp [build_glyph_row]

theorem lookup_scan_shape {lines : List String} {c : Nat} {font : List (List Char)}
    (h : lookup_scan lines c = some font) :
    font.length = 16 ∧ ∀ row ∈ font, row.length = 8 := by
  induction lines with
  | nil => exact absurd h (by rw [lookup_scan]; simp)
  | cons line rest ih =>
    rw [lookup_scan] at h
    rcases hp : parse_header line with _ | idx
    · rw [hp] at h
      exact ih h
    · rw [hp] at h
      change (if idx ≠ c then lookup_scan rest c
        else some (build_glyph rest)) = some font at h
      by_cases hne : idx ≠ c
      · rw [if_pos hne] at h
        exact ih h
      · rw [if_neg hne] at h
        have hfont : build_glyph rest = font := Option.some.inj h
        rw [← hfont]
        exact build_glyph_shape rest

theorem lookup_font_shape {lines : List String} {c : Nat} {font : List (List Char)}
    (h : lookup_font lines c = some font) :
    font.length = 16 ∧ ∀ row ∈ font, row.length = 8 := by
  rw [lookup_font] at h
  by_cases hc : c ≤ 255
  · rw [if_pos hc] at h
    exact lookup_scan_shape h
  · rw [if_neg hc] at h
    exact absurd h (by simp)

theorem mem_glyph_points {font : List (List Char)} {x y : Int} {p : Int × Int} :
    p ∈ glyph_points font x y ↔
      ∃ yy xx : Nat, ∃ row, font[yy]? = some row ∧ row[xx]? = some '*'
        ∧ p = (x + (xx : Int), y + (yy : Int)) := by
  simp only [glyph_points, List.mem_flatMap, List.mem_filterMap]
  constructor
  · rintro ⟨⟨yy, row⟩, hr, ⟨xx, ch⟩, hq, hmap⟩
    have hrow : font[yy]? = some row := List.mk_mem_enum_iff_getElem?.mp hr
    have hch : row[xx]? = some ch := List.mk_mem_enum_iff_getElem?.mp hq
    by_cases hstar : ch = '*'
    · rw [if_pos hstar] at hmap
      subst hstar
      exact ⟨yy, xx, row, hrow, hch, (Option.some.inj hmap).symm⟩
    · rw [if_neg hstar] at hmap
      exact absurd hmap (by simp)
  · rintro ⟨yy, xx, row, hrow, hch, hp⟩
    refine ⟨(yy, row), List.mk_mem_enum_iff_getElem?.mpr hrow,
      (xx, '*'), List.mk_mem_enum_iff_getElem?.mpr hch, ?_⟩
    rw [if_pos rfl, hp]

theorem unchecked_pixel_at_inj {buf : VramBufferInfo} {a b a2 b2 : Int}
    (hppl : 0 < buf.pixels_per_line)
    (ha0 : 0 ≤ a) (ha1 : a < buf.pixels_per_line)
    (hb0 : 0 ≤ a2) (hb1 : a2 < buf.pixels_per_line)
    (h : unchecked_pixel_at buf a b = unchecked_pixel_at buf a2 b2) :
    a = a2 ∧ b = b2 := by
  unfold unchecked_pixel_at bytes_per_pixel at h
  have h4 : b * buf.pixels_per_line + a = b2 * buf.pixels_per_line + a2 :=
    mul_right_cancel₀ (by norm_num) h
  have heqa : a = a2 := by
    have h1 : (b * buf.pixels_per_line + a) % buf.pixels_per_line = a := by
      rw [add_comm, mul_comm, Int.add_mul_emod_self_left,
        Int.emod_eq_of_lt ha0 ha1]
    have h2 : (b2 * buf.pixels_per_line + a2) % buf.pixels_per_line = a2 := by
      rw [add_comm, mul_comm, Int.add_mul_emod_self_left,
        Int.emod_eq_of_lt hb0 hb1]
    rw [← h1, ← h2, h4]
  refine ⟨heqa, ?_⟩
  have hmul : b * buf.pixels_per_line = b2 * buf.pixels_per_line := by
    rw [heqa] at h4
    exact add_right_cancel h4
  exact mul_right_cancel₀ (ne_of_gt hppl) hmul

theorem getElem?_eq_some_getD {α : Type} {l : List α} {i : Nat} (d : α)
    (h : i < l.length) : l[i]? = some (l.getD i d) := by
  rw [List.getD_eq_getElem?_getD, List.getElem?_eq_getElem h]
  rfl

theorem getD_eq_getElem {α : Type} {l : List α} {i : Nat} (d : α)
    (h : i < l.length) : l.getD i d = l[i] := by
  rw [List.getD_eq_getElem?_getD, List.getElem?_eq_getElem h]
  rfl

/-- C9: transparent blit.  For a codepoint whose glyph is present and an
in-range 8×16 placement at `(x, y)`, `draw_font_fg` writes `color` exactly
at the ink cells `(x+dx, y+dy)` of the glyph; the pixel of every blank
cell, and every pixel outside the glyph footprint, keeps its previous
value. -/
theorem draw_font_fg_transparent (fontLines : List String)
    (buf : VramBufferInfo) (x y : Int) (color : Nat) (cp : Nat)
    (font : List (List Char))
    (hl : lookup_font fontLines cp = some font)
    (hx0 : 0 ≤ x) (hx1 : x + 8 ≤ min buf.width buf.pixels_per_line)
    (hy0 : 0 ≤ y) (hy1 : y + 16 ≤ buf.height) :
    (∀ dx dy : Nat, dx < 8 → dy < 16 →
      (draw_font_fg fontLines buf x y color cp).store
          (unchecked_pixel_at buf (x + (dx : Int)) (y + (dy : Int))) =
        if (font.getD dy []).getD dx '.' = '*' then color
        else buf.store (unchecked_pixel_at buf (x + (dx : Int)) (y + (dy : Int))))
    ∧ (∀ px py : Int, 0 ≤ px → px < buf.pixels_per_line →
        ¬(x ≤ px ∧ px < x + 8 ∧ y ≤ py ∧ py < y + 16) →
        (draw_font_fg fontLines buf x y color cp).store
            (unchecked_pixel_at buf px py) =
          buf.store (unchecked_pixel_at buf px py)) := by
  have hshape := lookup_font_shape hl
  have hppl : 0 < buf.pixels_per_line := by omega
  have hdf : draw_font_fg fontLines buf x y color cp =
      draw_point_list buf (glyph_points font x y) color := by
    rw [draw_font_fg, hl]
  rw [hdf]
  constructor
  · intro dx dy hdx hdy
    rw [draw_point_list_store]
    have hylt : dy < font.length := by omega
    have hrow8 : (font.getD dy []).length = 8 := by
      rw [getD_eq_getElem [] hylt]
      exact hshape.2 (font[dy]) (List.getElem_mem hylt)
    by_cases hstar : (font.getD dy []).getD dx '.' = '*'
    · rw [if_pos hstar, if_pos]
      refine ⟨(x + (dx : Int), y + (dy : Int)), ?_, ?_, ?_, rfl⟩
      · apply mem_glyph_points.mpr
        refine ⟨dy, dx, font.getD dy [], getElem?_eq_some_getD [] hylt, ?_, rfl⟩
        rw [← hstar]
        exact getElem?_eq_some_getD '.' (by omega)
      · exact ⟨by omega, by omega⟩
      · exact ⟨by omega, by omega⟩
    · rw [if_neg hstar, if_neg]
      rintro ⟨q, hq, hq1, hq2, hq3⟩
      rcases mem_glyph_points.mp hq with ⟨yy, xx, row, hrow, hch, hqe⟩
      subst hqe
      have hyy : yy < font.length := (List.getElem?_eq_some.mp hrow).1
      have hxx : xx < row.length := (List.getElem?_eq_some.mp hch).1
      have hxxin : 0 ≤ x + (xx : Int) ∧ x + (xx : Int) < buf.pixels_per_line := by
        rcases hq1 with ⟨ha, hb⟩
        omega
      have hdxin : 0 ≤ x + (dx : Int) ∧ x + (dx : Int) < buf.pixels_per_line := by
        omega
      have hinj := unchecked_pixel_at_inj hppl hxxin.1 hxxin.2 hdxin.1 hdxin.2 hq3
      have hxeq : xx = dx := by omega
      have hyeq : yy = dy := by omega
      subst hxeq
      subst hyeq
      apply hstar
      have hrowD : font.getD yy [] = row := by
        rcases List.getElem?_eq_some.mp hrow with ⟨hlt, heq⟩
        rw [getD_eq_getElem [] hlt]
        exact heq
      rw [hrowD]
      rcases List.getElem?_eq_some.mp hch with ⟨hlt2, hchv⟩
      rw [getD_eq_getElem '.' hlt2]
      exact hchv
  · intro px py hpx0 hpx1 hout
    rw [draw_point_list_store, if_neg]
    rintro ⟨q, hq, hq1, hq2, hq3⟩
    rcases mem_glyph_points.mp hq with ⟨yy, xx, row, hrow, hch, hqe⟩
    subst hqe
    have hyy : yy < font.length := (List.getElem?_eq_some.mp hrow).1
    have hxx : xx < row.length := (List.getElem?_eq_some.mp hch).1
    have hrowmem : row ∈ font := by
      rcases List.getElem?_eq_some.mp hrow with ⟨hlt, heq⟩
      rw [← heq]
      exact List.getElem_mem hlt
    have hrow8 : row.length = 8 := hshape.2 row hrowmem
    have hxxin : 0 ≤ x + (xx : Int) ∧ x + (xx : Int) < buf.pixels_per_line := by
      rcases hq1 with ⟨ha, hb⟩
      omega
    have hinj := unchecked_pixel_at_inj hppl hxxin.1 hxxin.2 hpx0 hpx1 hq3
    apply hout
    refine ⟨by omega, by omega, by omega, by omega⟩

/-- An 8×16 canvas with stride 8, initially all zero. -/
def vram8x16 : VramBufferInfo :=
  { width := 8, height := 16, pixels_per_line := 8, store := fun _ => 0 }

theorem draw_font_fg_transparent_witness :
    (draw_font_fg ["0x41", "*"] vram8x16 0 0 7 65).store
      (unchecked_pixel_at vram8x16 (0 + ((0 : Nat) : Int)) (0 + ((0 : Nat) : Int))) =
      if ((build_glyph ["*"]).getD 0 []).getD 0 '.' = '*' then 7
      else vram8x16.store
        (unchecked_pixel_at vram8x16 (0 + ((0 : Nat) : Int)) (0 + ((0 : Nat) : Int))) :=
  (draw_font_fg_transparent ["0x41", "*"] vram8x16 0 0 7 65 (build_glyph ["*"])
    rfl (by decide) (by decide) (by decide) (by decide)).1 0 0
    (by decide) (by decide)
